import Mathlib

/-!
Verification development for the numerical core of the Math-Playground
repository (an educational mathematics visualizer).  The TypeScript
utility functions of `src/utils/math.ts` and the data-generation module
are shallowly embedded below: pure numeric code becomes Lean functions
over `ℚ` (where the computation is exact rational arithmetic) or over a
general ordered field instantiated at `ℝ` (where transcendental
functions such as `sin`, `cos`, `exp`, `log` are involved); code that
can produce the JavaScript sentinel values `NaN`/`Infinity` on the paths
under study is additionally embedded over an extended number type
`JSNum` that models those IEEE-754 special values exactly.
-/

/-! ## Expression normalization (`parseFunction`, src/utils/math.ts)

The source normalizes the input with two chained global regex
replacements before handing the string to the external `mathjs`
compiler:

  `expression.replace(/\bln\(/g, 'log(').replace(/\blog\(/g, 'log10(')`

`replaceLn` and `replaceLog` below are the two replacement passes,
specialized to their concrete patterns.  JavaScript `\b` before `l`
means the preceding character (if any) is not a word character
`[A-Za-z0-9_]`; a global regex scans left to right, and after a match it
resumes immediately after the matched text of the original string, so
the `prev` argument carries the original character preceding the current
scan position. -/

/-- JavaScript word character class `\w`, i.e. `[A-Za-z0-9_]`. -/
def isWordChar (c : Char) : Bool := c.isAlphanum || c = '_'

/-- The JavaScript word-boundary test `\b` at a position whose preceding
original character is `prev` (`none` at the start of the string),
for a match that starts with a word character. -/
def boundaryOk (prev : Option Char) : Bool :=
  match prev with
  | none => true
  | some q => !isWordChar q

/-- First pass of the source's normalization:
`.replace(/\bln\(/g, 'log(')` as a left-to-right scan. -/
def replaceLn : Option Char → List Char → List Char
  | _, [] => []
  | prev, 'l' :: 'n' :: '(' :: rest2 =>
    if boundaryOk prev then
      'l' :: 'o' :: 'g' :: '(' :: replaceLn (some '(') rest2
    else
      'l' :: replaceLn (some 'l') ('n' :: '(' :: rest2)
  | _, c :: rest => c :: replaceLn (some c) rest

/-- Second pass of the source's normalization:
`.replace(/\blog\(/g, 'log10(')` as a left-to-right scan. -/
def replaceLog : Option Char → List Char → List Char
  | _, [] => []
  | prev, 'l' :: 'o' :: 'g' :: '(' :: rest2 =>
    if boundaryOk prev then
      'l' :: 'o' :: 'g' :: '1' :: '0' :: '(' :: replaceLog (some '(') rest2
    else
      'l' :: replaceLog (some 'l') ('o' :: 'g' :: '(' :: rest2)
  | _, c :: rest => c :: replaceLog (some c) rest

/-- The normalization performed by `parseFunction` before compiling:
`expression.replace(/\bln\(/g, 'log(').replace(/\blog\(/g, 'log10(')`.
Note that the second replacement also rewrites every `log(` produced by
the first one. -/
def normalizeExpression (expression : String) : String :=
  String.mk (replaceLog none (replaceLn none expression.data))

/-- The `MathFunction` record of `src/types/math.ts`:
`{expression: string, evaluate: (x:number) => number}`. -/
structure MathFunction where
  expression : String
  evaluate : ℝ → ℝ

/-- `parseFunction` of `src/utils/math.ts`.  The external `mathjs`
`compile` step is a parameter returning `none` where the library would
throw (the surrounding `try`/`catch` of the source); on failure the
source returns the fallback `{expression: 'x', evaluate: (x) => x}`.
(The per-point `try`/`catch` inside `evaluate`, which maps evaluation
errors to `NaN`, is not modelled: the compiled functions considered here
are total on `ℝ`.) -/
def parseFunction (compile : String → Option (ℝ → ℝ)) (expression : String) :
    MathFunction :=
  match compile (normalizeExpression expression) with
  | some node => { expression := expression, evaluate := node }
  | none => { expression := "x", evaluate := fun x => x }

/-- Modelled from the documented semantics of the external `mathjs`
library (a dependency, not code of this repository): `log(x)` compiles
to the natural logarithm, `log10(x)` to the base-10 logarithm
`log x / log 10`, and the expression `x` to the identity.  Only the
fragment of the mathjs expression language reached by the claims is
interpreted; every other string is treated as failing to compile. -/
noncomputable def mathjsCompile : String → Option (ℝ → ℝ) := fun s =>
  if s = "x" then some (fun x => x)
  else if s = "log(x)" then some Real.log
  else if s = "log10(x)" then some (fun x => Real.log x / Real.log 10)
  else none

/-! ## Function sampling (`generateFunctionPoints`, src/utils/math.ts) -/

/-- The `Point` record of `src/types/math.ts`: `{x: number, y: number}`.
The claims about point generation and histograms involve only rational
arithmetic, so the coordinates are embedded as `ℚ`. -/
structure Point where
  x : ℚ
  y : ℚ
deriving DecidableEq

/-- The range record `{min: number, max: number, step: number}` taken by
the point generators. -/
structure FunctionRange where
  min : ℚ
  max : ℚ
  step : ℚ

/-- The x-values visited by the sampling loop
`for (let x = range.min; x <= range.max; x += range.step)` of
`generateFunctionPoints`.  The source loop terminates only for
`0 < step`; this definition returns `[]` when `step ≤ 0` (where the
source would never terminate if `min ≤ max`), and the claims about it
all assume `0 < step`. -/
def sampleXs (x maxv step : ℚ) : List ℚ :=
  if _h : 0 < step ∧ x ≤ maxv then x :: sampleXs (x + step) maxv step else []
termination_by (⌊(maxv - x) / step⌋ + 1).toNat
decreasing_by
  obtain ⟨hstep, hle⟩ := _h
  have hs : step ≠ 0 := ne_of_gt hstep
  have hdiv : (maxv - (x + step)) / step = (maxv - x) / step - 1 := by
    field_simp
    ring
  have hfl : ⌊(maxv - (x + step)) / step⌋ = ⌊(maxv - x) / step⌋ - 1 := by
    rw [hdiv, Int.floor_sub_one]
  have hnn : (0 : ℤ) ≤ ⌊(maxv - x) / step⌋ :=
    Int.floor_nonneg.mpr (div_nonneg (by linarith) hstep.le)
  rw [hfl]
  omega

/-- `generateFunctionPoints` of `src/utils/math.ts`.  The loop body
evaluates `y = f(x)` and pushes `{x, y}` exactly when `y` is finite;
`f x = none` models the skipped cases (`y` is `NaN`/infinite, or the
evaluation throws).  The single source loop is factored into the
visited x-values (`sampleXs`) and the per-point filter. -/
def generateFunctionPoints (f : ℚ → Option ℚ) (range : FunctionRange) :
    List Point :=
  (sampleXs range.min range.max range.step).filterMap fun x =>
    (f x).map fun y => { x := x, y := y }

/-! ## Binomial distribution (`binomialPMF`, src/utils/math.ts)

`binomialPMF(k, n, p)` computes an inner iterative binomial coefficient
and then `coefficient * Math.pow(p, k) * Math.pow(1 - p, n - k)`.  The
arithmetic is embedded twice:
* over an arbitrary linearly ordered field (instantiated at `ℝ`),
  i.e. idealized exact arithmetic with integer-exponent powers — the
  reading used by the spec's "exactly 1 in exact real arithmetic"; and
* over `JSNum`, an extension of the field with the IEEE-754 special
  values `NaN`/`Infinity`/`-Infinity` that JavaScript numbers produce on
  the edge paths (`Math.pow(0, negative) = Infinity`, `0 * Infinity =
  NaN`).  Finite arithmetic in `JSNum` is exact (no rounding or overflow
  is modelled); on every path proved below the finite values involved
  are exactly representable, so the model agrees with JavaScript there.
-/

/-- The inner loop of `binomialCoefficient`:
`for (let i = 1; i <= k; i++) result = result * (n - i + 1) / i`. -/
def binomialCoefficientLoop (α : Type) [Field α] (n k : ℕ) : α :=
  (List.range' 1 k).foldl
    (fun (result : α) (i : ℕ) => result * ((n : α) - (i : α) + 1) / (i : α)) 1

/-- The `binomialCoefficient` helper inside `binomialPMF`:
returns 0 for `k < 0 || k > n`, 1 for `k === 0 || k === n`, and
otherwise the multiplicative loop. -/
def binomialCoefficient (α : Type) [Field α] (n : ℕ) (k : ℤ) : α :=
  if k < 0 ∨ k > (n : ℤ) then 0
  else if k = 0 ∨ k = (n : ℤ) then 1
  else binomialCoefficientLoop α n k.toNat

/-- `binomialPMF` of `src/utils/math.ts` in exact field arithmetic:
`binomialCoefficient(n, k) * Math.pow(p, k) * Math.pow(1 - p, n - k)`
with integer-exponent powers. -/
def binomialPMF (α : Type) [Field α] (k : ℤ) (n : ℕ) (p : α) : α :=
  binomialCoefficient α n k * p ^ k * (1 - p) ^ ((n : ℤ) - k)

/-- A JavaScript number over carrier `α`: either one of the IEEE-754
special values `NaN`, `Infinity`, `-Infinity`, or a finite value. -/
inductive JSNum (α : Type) where
  | nan : JSNum α
  | inf : JSNum α
  | ninf : JSNum α
  | fin : α → JSNum α
deriving DecidableEq

/-- JavaScript multiplication on `JSNum`, following IEEE-754:
`NaN` is absorbing, `±Infinity * 0 = NaN`, infinities multiply by sign,
and finite products are exact (rounding/overflow not modelled). -/
def jmul {α : Type} [Field α] [LinearOrder α] : JSNum α → JSNum α → JSNum α
  | .nan, _ => .nan
  | _, .nan => .nan
  | .inf, .inf => .inf
  | .inf, .ninf => .ninf
  | .ninf, .inf => .ninf
  | .ninf, .ninf => .inf
  | .inf, .fin q => if q = 0 then .nan else if 0 < q then .inf else .ninf
  | .fin q, .inf => if q = 0 then .nan else if 0 < q then .inf else .ninf
  | .ninf, .fin q => if q = 0 then .nan else if 0 < q then .ninf else .inf
  | .fin q, .ninf => if q = 0 then .nan else if 0 < q then .ninf else .inf
  | .fin a, .fin b => .fin (a * b)

/-- JavaScript `Math.pow` on `JSNum`, restricted to integer exponents
(the only exponents the embedded code uses), following IEEE-754:
`pow(x, 0) = 1` for every `x` (including `NaN`), `pow(+0, k) = +0` for
`k > 0` and `+Infinity` for `k < 0`, and nonzero finite powers are exact
(rounding/overflow not modelled; JavaScript has no negative zero here
because the embedded code only reaches nonnegative zero bases). -/
def jzpow {α : Type} [Field α] [LinearOrder α] : JSNum α → ℤ → JSNum α
  | .nan, k => if k = 0 then .fin 1 else .nan
  | .inf, k => if k = 0 then .fin 1 else if 0 < k then .inf else .fin 0
  | .ninf, k =>
    if k = 0 then .fin 1
    else if 0 < k then (if k % 2 = 0 then .inf else .ninf)
    else .fin 0
  | .fin q, k =>
    if k = 0 then .fin 1
    else if q = 0 then (if 0 < k then .fin 0 else .inf)
    else .fin (q ^ k)

/-- JavaScript division on `JSNum`, following IEEE-754: `NaN` is
absorbing, `Infinity / Infinity = NaN`, `x / ±Infinity = 0` for finite
`x`, `x / 0` is `NaN` for `x = 0` and a signed infinity otherwise
(the divisor zero is `+0`), and finite quotients are exact. -/
def jdiv {α : Type} [Field α] [LinearOrder α] : JSNum α → JSNum α → JSNum α
  | .nan, _ => .nan
  | _, .nan => .nan
  | .inf, .inf => .nan
  | .inf, .ninf => .nan
  | .ninf, .inf => .nan
  | .ninf, .ninf => .nan
  | .inf, .fin q => if 0 ≤ q then .inf else .ninf
  | .ninf, .fin q => if 0 ≤ q then .ninf else .inf
  | .fin _, .inf => .fin 0
  | .fin _, .ninf => .fin 0
  | .fin a, .fin b =>
    if b = 0 then (if a = 0 then .nan else if 0 < a then .inf else .ninf)
    else .fin (a / b)

/-- `binomialPMF` of `src/utils/math.ts` over JavaScript numbers:
`binomialCoefficient(n, k) * Math.pow(p, k) * Math.pow(1 - p, n - k)`,
with the products and powers carried out in `JSNum`.  The coefficient
itself is finite (the out-of-support branches return exact `0`). -/
def binomialPMFjs {α : Type} [Field α] [LinearOrder α] (k : ℤ) (n : ℕ)
    (p : α) : JSNum α :=
  jmul (jmul (.fin (binomialCoefficient α n k)) (jzpow (.fin p) k))
    (jzpow (.fin (1 - p)) ((n : ℤ) - k))

/-! ## Histogram generation (`generateHistogram`, data-generation module)

`generateHistogram(data, bins = 30, min?, max?)` resolves the bounds
(falling back to `Math.min(...data)` / `Math.max(...data)`), computes
`binWidth = (max - min) / bins`, counts each in-range value into
`histogram[Math.min(Math.floor((value - min) / binWidth), bins - 1)]`,
and finally emits one point per bin with the bin center as `x` and the
count as `y`. -/

/-- `Math.min(...data)`.  For empty `data` JavaScript yields `Infinity`;
this model returns the junk value 0 there, which is unobservable in the
theorems below: with no data the counting pass is vacuous either way. -/
def jsMinimum (data : List ℚ) : ℚ :=
  match data with
  | [] => 0
  | v :: rest => rest.foldl min v

/-- `Math.max(...data)`; junk value 0 for empty `data` (JavaScript:
`-Infinity`), unobservable as for `jsMinimum`. -/
def jsMaximum (data : List ℚ) : ℚ :=
  match data with
  | [] => 0
  | v :: rest => rest.foldl max v

/-- `histogram[i]++` on the counts array (no-op out of range; the
callers below only use it in range). -/
def bumpAt (l : List ℕ) (i : ℕ) : List ℕ := l.set i (l.getD i 0 + 1)

/-- The body of the `data.forEach` counting pass of `generateHistogram`.
Two JavaScript artifacts are modelled explicitly rather than through
`ℚ`'s division-by-zero convention:
* `binWidth = 0` (degenerate `min = max`, or `bins = 0`): the computed
  index is `NaN` (`0/0`) and `histogram[NaN]++` creates a stray object
  property without touching any integer-indexed bin — a no-op on the
  counts;
* an index outside `[0, bins)` would likewise not touch the counts
  (it cannot actually occur when `binWidth > 0`, as proved below). -/
def histStep (actualMin actualMax binWidth : ℚ) (bins : ℕ)
    (h : List ℕ) (v : ℚ) : List ℕ :=
  if actualMin ≤ v ∧ v ≤ actualMax then
    if binWidth = 0 then h
    else
      let binIndex : ℤ := min ⌊(v - actualMin) / binWidth⌋ ((bins : ℤ) - 1)
      if 0 ≤ binIndex ∧ binIndex < (bins : ℤ) then bumpAt h binIndex.toNat else h
  else h

/-- `generateHistogram` of the data-generation module. -/
def generateHistogram (data : List ℚ) (bins : ℕ) (mino maxo : Option ℚ) :
    List Point :=
  let actualMin := mino.getD (jsMinimum data)
  let actualMax := maxo.getD (jsMaximum data)
  let binWidth := (actualMax - actualMin) / (bins : ℚ)
  let histogram := data.foldl (histStep actualMin actualMax binWidth bins)
    (List.replicate bins 0)
  (List.range bins).map fun (i : ℕ) =>
    { x := actualMin + (i : ℚ) * binWidth + binWidth / 2
      y := (histogram.getD i 0 : ℚ) }

/-! ## Discrete Fourier transform (`dft`, src/utils/math.ts) -/

/-- The `ComplexNumber` record of `src/types/math.ts`:
`{real: number, imag: number}`. -/
structure ComplexNumber where
  real : ℝ
  imag : ℝ

/-- `dft` of `src/utils/math.ts`: for every `k in [0, N)` the inner loop
accumulates `real += signal[n] * cos(angle)` and
`imag -= signal[n] * sin(angle)` with `angle = 2πkn/N` over all `N`
samples, pushing one `ComplexNumber` per output index.  The `+=`/`-=`
accumulation is embedded as a (negated) finite sum; `Math.PI` is `π`
(real-arithmetic reading, no rounding). -/
noncomputable def dft (signal : List ℝ) : List ComplexNumber :=
  (List.range signal.length).map fun (k : ℕ) =>
    { real := ∑ n ∈ Finset.range signal.length,
        signal.getD n 0 * Real.cos (2 * Real.pi * k * n / signal.length)
      imag := - ∑ n ∈ Finset.range signal.length,
        signal.getD n 0 * Real.sin (2 * Real.pi * k * n / signal.length) }

/-! ## Harmonic signal generators

`generateSignalWithHarmonics` exists twice, with identical bodies: once
in `src/utils/math.ts` and once in the data-generation module.  Each is
embedded from its own file: for `i in [0, samples)`, with `t = i /
samples`, the sample is the sum over `h = 1..harmonics` of
`(amplitude / h) * sin(2π * (baseFrequency * h) * t)`. -/

namespace MathUtils

/-- `generateSignalWithHarmonics` of `src/utils/math.ts`. -/
noncomputable def generateSignalWithHarmonics (baseFrequency : ℝ)
    (harmonics : ℕ) (amplitude : ℝ) (samples : ℕ) : List ℝ :=
  (List.range samples).map fun (i : ℕ) =>
    ∑ h ∈ Finset.Icc 1 harmonics,
      (amplitude / h) * Real.sin (2 * Real.pi * (baseFrequency * h) *
        ((i : ℝ) / (samples : ℝ)))

end MathUtils

namespace DataUtils

/-- `generateSignalWithHarmonics` of the data-generation module. -/
noncomputable def generateSignalWithHarmonics (baseFrequency : ℝ)
    (harmonics : ℕ) (amplitude : ℝ) (samples : ℕ) : List ℝ :=
  (List.range samples).map fun (i : ℕ) =>
    ∑ h ∈ Finset.Icc 1 harmonics,
      (amplitude / h) * Real.sin (2 * Real.pi * (baseFrequency * h) *
        ((i : ℝ) / (samples : ℝ)))

end DataUtils

/-! ## Poisson distribution (`poissonPMF` and `factorial`,
src/utils/math.ts) -/

/-- `factorial` of `src/utils/math.ts` over JavaScript numbers:
`NaN` for negative arguments, 1 for 0 and 1, else the iterative product
`for (let i = 2; i <= n; i++) result *= i` (exact, as the claims never
evaluate the product itself). -/
noncomputable def factorial (n : ℤ) : JSNum ℝ :=
  if n < 0 then .nan
  else if n = 0 ∨ n = 1 then .fin 1
  else .fin ((List.range' 2 (n.toNat - 1)).foldl
    (fun (result : ℝ) (i : ℕ) => result * (i : ℝ)) 1)

/-- `poissonPMF` of `src/utils/math.ts` over JavaScript numbers:
`(Math.pow(lambda, k) * Math.exp(-lambda)) / factorial(k)`. -/
noncomputable def poissonPMF (k : ℤ) (lambda : ℝ) : JSNum ℝ :=
  jdiv (jmul (jzpow (.fin lambda) k) (.fin (Real.exp (-lambda)))) (factorial k)

/-! # Theorems -/

theorem normalize_ln : normalizeExpression "ln(x)" = "log10(x)" := by decide

theorem normalize_log : normalizeExpression "log(x)" = "log10(x)" := by decide

theorem one_lt_log_ten : 1 < Real.log 10 := by
  rw [Real.lt_log_iff_exp_lt (by norm_num : (0:ℝ) < 10)]
  calc Real.exp 1 < 2.7182818286 := Real.exp_one_lt_d9
    _ < 10 := by norm_num

/-- C1: the claim says `parseFunction` makes `ln(...)` denote the natural
logarithm and bare `log(...)` the base-10 logarithm.  The second half
holds, but the two chained replacements are a slip: the first rewrites
`ln(` to `log(` and the second then rewrites that very `log(` to
`log10(`, so `ln(x)` is compiled as the base-10 logarithm.  At the
failing input `"ln(x)"` evaluated at `x = 10`, the code yields
`log 10 / log 10 = 1`, whereas the natural logarithm of `10` is not `1`. -/
theorem parseFunction_ln_is_base10 :
    normalizeExpression "ln(x)" = "log10(x)" ∧
    (parseFunction mathjsCompile "ln(x)").evaluate 10 = 1 ∧
    Real.log 10 ≠ 1 := by
  refine ⟨normalize_ln, ?_, ne_of_gt one_lt_log_ten⟩
  have hlog : Real.log 10 ≠ 0 := by positivity
  simp only [parseFunction, normalize_ln, mathjsCompile]
  rw [if_neg (by decide : ¬("log10(x)" = "x")),
    if_neg (by decide : ¬("log10(x)" = "log(x)"))]
  exact div_self hlog

/-- C2: whenever compiling the (normalized) expression fails, the code
does not raise: it returns the fallback `MathFunction` whose
`expression` field is `"x"` and whose `evaluate` is the identity. -/
theorem parseFunction_fallback_identity
    (compile : String → Option (ℝ → ℝ)) (expression : String)
    (h : compile (normalizeExpression expression) = none) :
    (parseFunction compile expression).expression = "x" ∧
    ∀ x : ℝ, (parseFunction compile expression).evaluate x = x := by
  simp [parseFunction, h]

theorem parseFunction_fallback_identity_witness :
    (fun _ : String => (none : Option (ℝ → ℝ))) (normalizeExpression "(") = none ∧
    ((parseFunction (fun _ => none) "(").expression = "x" ∧
      ∀ x : ℝ, (parseFunction (fun _ => none) "(").evaluate x = x) :=
  ⟨rfl, parseFunction_fallback_identity (fun _ => none) "(" rfl⟩

theorem sampleXs_length (x maxv step : ℚ) :
    (sampleXs x maxv step).length =
      if 0 < step ∧ x ≤ maxv then (⌊(maxv - x) / step⌋ + 1).toNat else 0 := by
  induction x, maxv, step using sampleXs.induct with
  | case1 x maxv step h ih =>
    rw [sampleXs, dif_pos h, List.length_cons, ih]
    obtain ⟨hstep, hle⟩ := h
    have hs : step ≠ 0 := ne_of_gt hstep
    have hdiv : (maxv - (x + step)) / step = (maxv - x) / step - 1 := by
      field_simp
      ring
    by_cases h2 : x + step ≤ maxv
    · rw [if_pos (⟨hstep, h2⟩ : 0 < step ∧ x + step ≤ maxv),
        if_pos (⟨hstep, hle⟩ : 0 < step ∧ x ≤ maxv), hdiv, Int.floor_sub_one]
      have hnn : (0 : ℤ) ≤ ⌊(maxv - x) / step⌋ :=
        Int.floor_nonneg.mpr (div_nonneg (by linarith) hstep.le)
      omega
    · rw [if_neg (fun hc : 0 < step ∧ x + step ≤ maxv => h2 hc.2),
        if_pos (⟨hstep, hle⟩ : 0 < step ∧ x ≤ maxv)]
      have h0 : (0:ℚ) ≤ (maxv - x) / step := div_nonneg (by linarith) hstep.le
      have h1 : (maxv - x) / step < 1 := by
        rw [div_lt_one hstep]
        linarith
      have : ⌊(maxv - x) / step⌋ = 0 := Int.floor_eq_zero_iff.mpr ⟨h0, h1⟩
      omega
  | case2 x maxv step h =>
    rw [sampleXs, dif_neg h, if_neg h]
    rfl

/-- C3 (counterexample): with `min = 0`, `max = 1`, `step = 2/5` the
loop visits `0, 2/5, 4/5` — three values — while the claimed formula
`ceil((max-min)/step) + 1 = ceil(5/2) + 1 = 4`. -/
theorem generateFunctionPoints_ceil_count_false :
    ¬ ((generateFunctionPoints (fun x => some x) ⟨0, 1, 2/5⟩).length =
      (⌈((1 : ℚ) - 0) / (2/5)⌉ + 1).toNat) := by
  have hs : sampleXs 0 1 (2/5) = [0, 2/5, 4/5] := by
    rw [sampleXs]; norm_num
    rw [sampleXs]; norm_num
    rw [sampleXs]; norm_num
    rw [sampleXs]; norm_num
  have hc : ⌈(5 : ℚ) / 2⌉ = 3 := by
    rw [Int.ceil_eq_iff]
    norm_num
  simp [generateFunctionPoints, hs, hc]

/-- C3 (amended): for `min ≤ max` and `step > 0` the sampling loop of
`generateFunctionPoints` visits exactly `floor((max-min)/step) + 1`
values of `x` (in exact arithmetic); equivalently, for an everywhere
finite `f` the returned list has that many points.  The claimed
`ceil((max-min)/step) + 1` agrees with this exactly when
`(max-min)/step` is an integer. -/
theorem generateFunctionPoints_total_count (f : ℚ → ℚ) (range : FunctionRange)
    (hle : range.min ≤ range.max) (hstep : 0 < range.step) :
    (generateFunctionPoints (fun x => some (f x)) range).length =
      (⌊(range.max - range.min) / range.step⌋ + 1).toNat := by
  show ((sampleXs range.min range.max range.step).filterMap
      (some ∘ fun x => Point.mk x (f x))).length = _
  rw [List.filterMap_eq_map, List.length_map, sampleXs_length,
    if_pos ⟨hstep, hle⟩]

theorem generateFunctionPoints_total_count_witness :
    ((⟨0, 1, 1/2⟩ : FunctionRange).min ≤ (⟨0, 1, 1/2⟩ : FunctionRange).max) ∧
    (0 < (⟨0, 1, 1/2⟩ : FunctionRange).step) ∧
    (generateFunctionPoints (fun x => some x) ⟨0, 1, 1/2⟩).length =
      (⌊((⟨0, 1, 1/2⟩ : FunctionRange).max - (⟨0, 1, 1/2⟩ : FunctionRange).min) /
        (⟨0, 1, 1/2⟩ : FunctionRange).step⌋ + 1).toNat :=
  ⟨by norm_num, by norm_num,
    generateFunctionPoints_total_count (fun x => x) ⟨0, 1, 1/2⟩
      (by norm_num) (by norm_num)⟩

/-- C4: `generateFunctionPoints` returns exactly the points `(x, f x)`
for visited values `x` where `f x` is finite (`f x = some y`); values
where `f x` is non-finite (`f x = none`) are skipped, not replaced.  In
particular the sample range `min = -1`, `max = 1`, `step = 1` with the
identity yields exactly the three points of the claim. -/
theorem generateFunctionPoints_skips_nonfinite :
    (∀ (f : ℚ → Option ℚ) (range : FunctionRange) (p : Point),
        p ∈ generateFunctionPoints f range ↔
          p.x ∈ sampleXs range.min range.max range.step ∧ f p.x = some p.y) ∧
    generateFunctionPoints (fun x => some x) ⟨-1, 1, 1⟩ =
      [⟨-1, -1⟩, ⟨0, 0⟩, ⟨1, 1⟩] := by
  constructor
  · intro f range p
    simp only [generateFunctionPoints, List.mem_filterMap, Option.map_eq_some']
    constructor
    · rintro ⟨a, ha, y, hy, rfl⟩
      exact ⟨ha, hy⟩
    · rintro ⟨hx, hy⟩
      exact ⟨p.x, hx, p.y, hy, rfl⟩
  · have hs : sampleXs (-1) 1 1 = [-1, 0, 1] := by
      rw [sampleXs]; norm_num
      rw [sampleXs]; norm_num
      rw [sampleXs]; norm_num
      rw [sampleXs]; norm_num
    simp [generateFunctionPoints, hs]

theorem binomialCoefficientLoop_eq_choose (α : Type) [Field α] [CharZero α]
    (n k : ℕ) (hk : k ≤ n) :
    binomialCoefficientLoop α n k = (n.choose k : α) := by
  induction k with
  | zero => simp [binomialCoefficientLoop]
  | succ k ih =>
    have hk' : k ≤ n := Nat.le_of_succ_le hk
    unfold binomialCoefficientLoop at ih ⊢
    rw [List.range'_1_concat, List.foldl_append, ih hk']
    simp only [List.foldl_cons, List.foldl_nil]
    have hchoose : (n.choose (k + 1) : α) * (k + 1 : α) =
        (n.choose k : α) * ((n : α) - (k : α)) := by
      have h := Nat.choose_succ_right_eq n k
      have hcast : ((n.choose (k + 1) * (k + 1) : ℕ) : α) =
          ((n.choose k * (n - k) : ℕ) : α) :=
        congrArg (Nat.cast : ℕ → α) h
      push_cast [Nat.cast_sub hk'] at hcast
      exact_mod_cast hcast
    have hk1 : (1 + (k : α)) ≠ 0 := by
      have h1 : ((1 + k : ℕ) : α) ≠ 0 := Nat.cast_ne_zero.mpr (by omega)
      push_cast at h1
      exact h1
    push_cast
    rw [div_eq_iff hk1]
    have harith : (n : α) - (1 + (k : α)) + 1 = (n : α) - (k : α) := by ring
    rw [harith, ← hchoose]
    ring

theorem binomialCoefficient_eq_choose (α : Type) [Field α] [CharZero α]
    (n k : ℕ) (hk : k ≤ n) :
    binomialCoefficient α n (k : ℤ) = (n.choose k : α) := by
  unfold binomialCoefficient
  rw [if_neg (by omega : ¬((k : ℤ) < 0 ∨ (k : ℤ) > (n : ℤ)))]
  by_cases h0 : (k : ℤ) = 0 ∨ (k : ℤ) = (n : ℤ)
  · rw [if_pos h0]
    rcases h0 with h | h
    · have hz : k = 0 := by exact_mod_cast h
      subst hz
      simp
    · have hz : k = n := by exact_mod_cast h
      subst hz
      simp
  · rw [if_neg h0]
    have ht : ((k : ℤ)).toNat = k := Int.toNat_natCast k
    rw [ht, binomialCoefficientLoop_eq_choose α n k hk]

/-- C5: for `1 ≤ n ≤ 50` and `0 < p < 1` the values `binomialPMF k n p`
for `k = 0..n` sum to exactly 1 in exact real arithmetic — the iterative
coefficient loop computes exactly `choose n k`, so this is the binomial
theorem.  (The hypotheses on `n` and `p` are those of the claim; the
proof does not need them.) -/
theorem binomialPMF_sums_to_one (n : ℕ) (p : ℝ) (_hn1 : 1 ≤ n)
    (_hn2 : n ≤ 50) (_hp0 : 0 < p) (_hp1 : p < 1) :
    ∑ k ∈ Finset.range (n + 1), binomialPMF ℝ (k : ℤ) n p = 1 := by
  have hsum : ∀ k ∈ Finset.range (n + 1),
      binomialPMF ℝ (k : ℤ) n p =
        (n.choose k : ℝ) * p ^ k * (1 - p) ^ (n - k) := by
    intro k hk
    rw [Finset.mem_range, Nat.lt_succ_iff] at hk
    unfold binomialPMF
    rw [binomialCoefficient_eq_choose ℝ n k hk]
    have h1 : p ^ (k : ℤ) = p ^ k := zpow_natCast p k
    have hcast : (n : ℤ) - (k : ℤ) = ((n - k : ℕ) : ℤ) := by
      rw [Nat.cast_sub hk]
    rw [h1, hcast, zpow_natCast]
  rw [Finset.sum_congr rfl hsum]
  have hadd := add_pow p (1 - p) n
  have hone : p + (1 - p) = 1 := by ring
  rw [hone, one_pow] at hadd
  calc ∑ k ∈ Finset.range (n + 1), (n.choose k : ℝ) * p ^ k * (1 - p) ^ (n - k)
      = ∑ k ∈ Finset.range (n + 1), p ^ k * (1 - p) ^ (n - k) * (n.choose k : ℝ) :=
        Finset.sum_congr rfl (fun k _ => by ring)
    _ = 1 := hadd.symm

theorem binomialPMF_sums_to_one_witness :
    ((1 : ℕ) ≤ 2 ∧ (2 : ℕ) ≤ 50 ∧ (0 : ℝ) < 1 / 2 ∧ (1 / 2 : ℝ) < 1) ∧
    ∑ k ∈ Finset.range (2 + 1), binomialPMF ℝ (k : ℤ) 2 (1 / 2 : ℝ) = 1 :=
  ⟨⟨by norm_num, by norm_num, by norm_num, by norm_num⟩,
    binomialPMF_sums_to_one 2 (1 / 2) (by norm_num) (by norm_num)
      (by norm_num) (by norm_num)⟩

theorem jmul_nan_left {α : Type} [Field α] [LinearOrder α] (x : JSNum α) :
    jmul JSNum.nan x = JSNum.nan := by
  cases x <;> rfl

theorem jmul_fin_fin {α : Type} [Field α] [LinearOrder α] (a b : α) :
    jmul (JSNum.fin a) (JSNum.fin b) = JSNum.fin (a * b) := rfl

theorem jzpow_fin_of_ne {α : Type} [Field α] [LinearOrder α] (q : α) (k : ℤ)
    (hk : k ≠ 0) (hq : q ≠ 0) :
    jzpow (JSNum.fin q) k = JSNum.fin (q ^ k) := by
  simp only [jzpow]
  rw [if_neg hk, if_neg hq]

theorem jzpow_fin_zero_neg {α : Type} [Field α] [LinearOrder α] (k : ℤ)
    (hk : k < 0) :
    jzpow (JSNum.fin (0 : α)) k = JSNum.inf := by
  simp only [jzpow]
  rw [if_neg (by omega : ¬k = 0), if_pos trivial, if_neg (by omega : ¬0 < k)]

theorem jzpow_fin_zero_pos {α : Type} [Field α] [LinearOrder α] (k : ℤ)
    (hk : 0 < k) :
    jzpow (JSNum.fin (0 : α)) k = JSNum.fin 0 := by
  simp only [jzpow]
  rw [if_neg (by omega : ¬k = 0), if_pos trivial, if_pos hk]

/-- C6 (counterexample): the claim says `binomialPMF(k, n, p) = 0` for
every real `p` whenever `k < 0` or `k > n`.  At `k = -1`, `n = 5`,
`p = 0` JavaScript evaluates `Math.pow(0, -1) = Infinity` and
`0 * Infinity = NaN`, so the function returns `NaN`, not `0`. -/
theorem binomialPMFjs_out_of_support_false :
    binomialPMFjs (-1 : ℤ) 5 (0 : ℝ) = JSNum.nan ∧
    binomialPMFjs (-1 : ℤ) 5 (0 : ℝ) ≠ JSNum.fin 0 := by
  have h : binomialPMFjs (-1 : ℤ) 5 (0 : ℝ) = JSNum.nan := by
    have hcoef : binomialCoefficient ℝ 5 (-1) = 0 := by
      unfold binomialCoefficient
      rw [if_pos (Or.inl (by norm_num))]
    have hz1 : jzpow (JSNum.fin (0 : ℝ)) (-1) = JSNum.inf :=
      jzpow_fin_zero_neg (-1) (by norm_num)
    unfold binomialPMFjs
    rw [hcoef, hz1]
    show jmul (if (0 : ℝ) = 0 then JSNum.nan
      else if 0 < (0 : ℝ) then JSNum.inf else JSNum.ninf) _ = JSNum.nan
    rw [if_pos rfl, jmul_nan_left]
  exact ⟨h, by rw [h]; exact fun hc => JSNum.noConfusion hc⟩

/-- C6 (amended): `binomialPMF(k, n, p)` returns 0 for out-of-support
`k` (`k < 0` or `k > n`) for every real `p` except on the IEEE edge
cases the claim's unrestricted `p` runs into: `p = 0` with `k < 0` and
`p = 1` with `k > n`, where a `Math.pow` factor is `Infinity` and the
result is `NaN`.  (Finite arithmetic is modelled exactly; rounding or
overflow of the finite power is not.) -/
theorem binomialPMFjs_out_of_support (k : ℤ) (n : ℕ) (p : ℝ)
    (hk : k < 0 ∨ k > (n : ℤ)) (h0 : k < 0 → p ≠ 0) (h1 : (n : ℤ) < k → p ≠ 1) :
    binomialPMFjs k n p = JSNum.fin 0 := by
  have hcoef : binomialCoefficient ℝ n k = 0 := by
    unfold binomialCoefficient
    rw [if_pos hk]
  unfold binomialPMFjs
  rw [hcoef]
  rcases hk with hneg | hpos
  · rw [jzpow_fin_of_ne p k (by omega) (h0 hneg), jmul_fin_fin, zero_mul]
    have hexp : (0 : ℤ) < (n : ℤ) - k := by omega
    by_cases hq : (1 : ℝ) - p = 0
    · rw [hq, jzpow_fin_zero_pos _ hexp, jmul_fin_fin, zero_mul]
    · rw [jzpow_fin_of_ne _ _ (by omega) hq, jmul_fin_fin, zero_mul]
  · by_cases hp : p = 0
    · rw [hp, jzpow_fin_zero_pos _ (by omega), jmul_fin_fin, zero_mul,
        jzpow_fin_of_ne _ _ (by omega) (by norm_num), jmul_fin_fin, zero_mul]
    · rw [jzpow_fin_of_ne p k (by omega) hp, jmul_fin_fin, zero_mul]
      have hbase : (1 : ℝ) - p ≠ 0 := fun hc => (h1 hpos) (by linarith)
      rw [jzpow_fin_of_ne _ _ (by omega : (n : ℤ) - k ≠ 0) hbase,
        jmul_fin_fin, zero_mul]

theorem binomialPMFjs_out_of_support_witness :
    ((-1 : ℤ) < 0 ∨ (-1 : ℤ) > ((5 : ℕ) : ℤ)) ∧
    ((-1 : ℤ) < 0 → (1 / 2 : ℝ) ≠ 0) ∧
    (((5 : ℕ) : ℤ) < (-1 : ℤ) → (1 / 2 : ℝ) ≠ 1) ∧
    binomialPMFjs (-1 : ℤ) 5 (1 / 2 : ℝ) = JSNum.fin 0 :=
  ⟨Or.inl (by norm_num), fun _ => by norm_num, fun hc => absurd hc (by norm_num),
    binomialPMFjs_out_of_support (-1) 5 (1 / 2) (Or.inl (by norm_num))
      (fun _ => by norm_num) (fun hc => absurd hc (by norm_num))⟩

theorem bumpAt_length (l : List ℕ) (i : ℕ) : (bumpAt l i).length = l.length :=
  List.length_set l i _

theorem bumpAt_sum (l : List ℕ) (i : ℕ) (hi : i < l.length) :
    (bumpAt l i).sum = l.sum + 1 := by
  induction l generalizing i with
  | nil => simp at hi
  | cons a t ih =>
    cases i with
    | zero =>
      simp [bumpAt]
      omega
    | succ j =>
      have hj : j < t.length := by simpa using hi
      have := ih j hj
      simp only [bumpAt, List.set_cons_succ, List.getD_cons_succ, List.sum_cons]
      simp only [bumpAt] at this
      omega

theorem histStep_length (m M w : ℚ) (bins : ℕ) (h : List ℕ) (v : ℚ) :
    (histStep m M w bins h v).length = h.length := by
  unfold histStep
  by_cases h1 : m ≤ v ∧ v ≤ M
  · rw [if_pos h1]
    by_cases h2 : w = 0
    · rw [if_pos h2]
    · rw [if_neg h2]
      by_cases h3 : 0 ≤ min ⌊(v - m) / w⌋ ((bins : ℤ) - 1) ∧
          min ⌊(v - m) / w⌋ ((bins : ℤ) - 1) < (bins : ℤ)
      · rw [if_pos h3, bumpAt_length]
      · rw [if_neg h3]
  · rw [if_neg h1]

theorem histStep_sum (m M w : ℚ) (bins : ℕ) (hbins : 1 ≤ bins) (hw : 0 < w)
    (h : List ℕ) (hh : h.length = bins) (v : ℚ) :
    (histStep m M w bins h v).sum =
      h.sum + (if m ≤ v ∧ v ≤ M then 1 else 0) := by
  unfold histStep
  by_cases h1 : m ≤ v ∧ v ≤ M
  · rw [if_pos h1, if_pos h1, if_neg (ne_of_gt hw)]
    have hfl : (0 : ℤ) ≤ ⌊(v - m) / w⌋ :=
      Int.floor_nonneg.mpr (div_nonneg (by linarith [h1.1]) hw.le)
    have hidx : (0 : ℤ) ≤ min ⌊(v - m) / w⌋ ((bins : ℤ) - 1) ∧
        min ⌊(v - m) / w⌋ ((bins : ℤ) - 1) < (bins : ℤ) := by
      constructor
      · exact le_min hfl (by omega)
      · exact lt_of_le_of_lt (min_le_right _ _) (by omega)
    rw [if_pos hidx, bumpAt_sum]
    rw [hh]
    omega
  · rw [if_neg h1, if_neg h1, Nat.add_zero]

theorem histFold_sum (m M w : ℚ) (bins : ℕ) (hbins : 1 ≤ bins) (hw : 0 < w)
    (data : List ℚ) :
    ∀ h : List ℕ, h.length = bins →
      (data.foldl (histStep m M w bins) h).sum =
        h.sum + data.countP (fun v => decide (m ≤ v ∧ v ≤ M)) := by
  induction data with
  | nil =>
    intro h _
    simp
  | cons v rest ih =>
    intro h hh
    rw [List.foldl_cons, List.countP_cons]
    have hlen : (histStep m M w bins h v).length = bins := by
      rw [histStep_length, hh]
    rw [ih _ hlen, histStep_sum m M w bins hbins hw h hh v]
    by_cases h1 : m ≤ v ∧ v ≤ M
    · rw [if_pos h1]
      simp [h1]
      omega
    · rw [if_neg h1]
      simp [h1]

theorem histFold_length (m M w : ℚ) (bins : ℕ) (data : List ℚ) :
    ∀ h : List ℕ, (data.foldl (histStep m M w bins) h).length = h.length := by
  induction data with
  | nil =>
    intro h
    rfl
  | cons v rest ih =>
    intro h
    rw [List.foldl_cons, ih, histStep_length]

theorem range_getD_sum (l : List ℕ) :
    ((List.range l.length).map (fun i => ((l.getD i 0 : ℕ) : ℚ))).sum =
      (l.sum : ℚ) := by
  induction l with
  | nil => simp
  | cons a t ih =>
    rw [List.length_cons, List.range_succ_eq_map, List.map_cons]
    simp only [List.getD_cons_zero, List.map_map]
    rw [List.sum_cons]
    have hmap : (List.map ((fun i => (((a :: t).getD i 0 : ℕ) : ℚ)) ∘ Nat.succ)
        (List.range t.length)) =
        List.map (fun i => ((t.getD i 0 : ℕ) : ℚ)) (List.range t.length) := rfl
    rw [hmap, ih]
    push_cast
    simp

/-- C7 (counterexample): with `data = [5]`, `bins = 1` and bounds
derived from the data, `min = max = 5` and `binWidth = 0`, so the
JavaScript bin index is `NaN` and the single in-range value `5` is
counted into no bin: the sum of the `y` values is `0`, but the number of
input values in `[min, max] = [5, 5]` is `1`. -/
theorem generateHistogram_degenerate_false :
    ¬ (((generateHistogram [(5 : ℚ)] 1 none none).map Point.y).sum =
      (([(5 : ℚ)].countP fun v =>
        decide (jsMinimum [(5 : ℚ)] ≤ v ∧ v ≤ jsMaximum [(5 : ℚ)])) : ℚ)) := by
  have hgh : generateHistogram [(5 : ℚ)] 1 none none =
      (List.range 1).map (fun (i : ℕ) =>
        ({ x := (5 : ℚ) + (i : ℚ) * (((5 : ℚ) - 5) / ((1 : ℕ) : ℚ)) +
              (((5 : ℚ) - 5) / ((1 : ℕ) : ℚ)) / 2
           y := ((([(5 : ℚ)].foldl
              (histStep 5 5 (((5 : ℚ) - 5) / ((1 : ℕ) : ℚ)) 1)
              [0]).getD i 0 : ℕ) : ℚ) } : Point)) := rfl
  have hfold : [(5 : ℚ)].foldl
      (histStep 5 5 (((5 : ℚ) - 5) / ((1 : ℕ) : ℚ)) 1) [0] = [0] := by
    rw [List.foldl_cons, List.foldl_nil]
    unfold histStep
    rw [if_pos ⟨le_refl (5 : ℚ), le_refl (5 : ℚ)⟩, if_pos (by norm_num)]
  rw [hgh, hfold]
  have hcount : ([(5 : ℚ)].countP fun v =>
      decide (jsMinimum [(5 : ℚ)] ≤ v ∧ v ≤ jsMaximum [(5 : ℚ)])) = 1 := by
    rw [List.countP_cons, List.countP_nil]
    norm_num [jsMinimum, jsMaximum]
  rw [hcount]
  simp

/-- C7 (amended): provided `bins ≥ 1` and the resolved bounds satisfy
`min < max` (so `binWidth > 0`), `generateHistogram` returns exactly
`bins` points and the sum of their `y` values equals the number of input
values inside the closed interval `[min, max]`; values strictly outside
contribute to no bin.  (The claim as stated fails only in the degenerate
`min = max` case of the counterexample, where `binWidth = 0` makes every
bin index `NaN`.)  The bin-count part holds for every input
unconditionally. -/
theorem generateHistogram_spec (data : List ℚ) (bins : ℕ) (mino maxo : Option ℚ)
    (hbins : 1 ≤ bins)
    (hlt : mino.getD (jsMinimum data) < maxo.getD (jsMaximum data)) :
    (generateHistogram data bins mino maxo).length = bins ∧
    ((generateHistogram data bins mino maxo).map Point.y).sum =
      (data.countP (fun v => decide (mino.getD (jsMinimum data) ≤ v ∧
        v ≤ maxo.getD (jsMaximum data))) : ℚ) := by
  have hbq : (0 : ℚ) < (bins : ℚ) := by exact_mod_cast hbins
  have hw : 0 < (maxo.getD (jsMaximum data) - mino.getD (jsMinimum data)) /
      (bins : ℚ) := div_pos (by linarith) hbq
  have hgh : generateHistogram data bins mino maxo =
      (List.range bins).map (fun (i : ℕ) =>
        ({ x := mino.getD (jsMinimum data) +
              (i : ℚ) * ((maxo.getD (jsMaximum data) -
                mino.getD (jsMinimum data)) / (bins : ℚ)) +
              ((maxo.getD (jsMaximum data) -
                mino.getD (jsMinimum data)) / (bins : ℚ)) / 2
           y := (((data.foldl (histStep (mino.getD (jsMinimum data))
              (maxo.getD (jsMaximum data))
              ((maxo.getD (jsMaximum data) -
                mino.getD (jsMinimum data)) / (bins : ℚ)) bins)
              (List.replicate bins 0)).getD i 0 : ℕ) : ℚ) } : Point)) := rfl
  rw [hgh]
  refine ⟨by rw [List.length_map, List.length_range], ?_⟩
  rw [List.map_map]
  show ((List.range bins).map fun (i : ℕ) =>
      (((data.foldl (histStep (mino.getD (jsMinimum data))
        (maxo.getD (jsMaximum data))
        ((maxo.getD (jsMaximum data) -
          mino.getD (jsMinimum data)) / (bins : ℚ)) bins)
        (List.replicate bins 0)).getD i 0 : ℕ) : ℚ)).sum = _
  have hlen : (data.foldl (histStep (mino.getD (jsMinimum data))
      (maxo.getD (jsMaximum data))
      ((maxo.getD (jsMaximum data) -
        mino.getD (jsMinimum data)) / (bins : ℚ)) bins)
      (List.replicate bins 0)).length = bins := by
    rw [histFold_length]
    exact List.length_replicate bins 0
  have hsum := range_getD_sum (data.foldl (histStep (mino.getD (jsMinimum data))
      (maxo.getD (jsMaximum data))
      ((maxo.getD (jsMaximum data) -
        mino.getD (jsMinimum data)) / (bins : ℚ)) bins)
      (List.replicate bins 0))
  rw [hlen] at hsum
  rw [hsum, histFold_sum _ _ _ bins hbins hw data (List.replicate bins 0)
    (List.length_replicate bins 0)]
  simp

theorem generateHistogram_spec_witness :
    (1 ≤ 1) ∧
    ((some (0 : ℚ)).getD (jsMinimum [(1/2 : ℚ)]) <
      (some (1 : ℚ)).getD (jsMaximum [(1/2 : ℚ)])) ∧
    ((generateHistogram [(1/2 : ℚ)] 1 (some 0) (some 1)).length = 1 ∧
      ((generateHistogram [(1/2 : ℚ)] 1 (some 0) (some 1)).map Point.y).sum =
        (([(1/2 : ℚ)].countP fun v =>
          decide ((some (0 : ℚ)).getD (jsMinimum [(1/2 : ℚ)]) ≤ v ∧
            v ≤ (some (1 : ℚ)).getD (jsMaximum [(1/2 : ℚ)]))) : ℚ)) :=
  ⟨le_refl 1, by norm_num [Option.getD],
    generateHistogram_spec [(1/2 : ℚ)] 1 (some 0) (some 1) (le_refl 1)
      (by norm_num [Option.getD])⟩

theorem sum_cos_sum_sin_zero (N k : ℕ) (hk1 : 1 ≤ k) (hkN : k < N) :
    (∑ n ∈ Finset.range N, Real.cos (2 * Real.pi * k * n / N)) = 0 ∧
    (∑ n ∈ Finset.range N, Real.sin (2 * Real.pi * k * n / N)) = 0 := by
  have hN0 : (0 : ℝ) < N := by
    have : 0 < N := lt_of_le_of_lt (Nat.zero_le k) hkN
    exact_mod_cast this
  have hNne : (N : ℝ) ≠ 0 := ne_of_gt hN0
  set θ : ℝ := 2 * Real.pi * k / N with hθ
  set z : ℂ := Complex.exp (θ * Complex.I) with hz
  have hzne : z ≠ 1 := by
    rw [hz, Ne, Complex.exp_eq_one_iff]
    rintro ⟨m, hm⟩
    have hm' : (θ : ℂ) * Complex.I = ((m : ℂ) * (2 * Real.pi)) * Complex.I := by
      rw [hm]
      ring
    have h2 : (θ : ℂ) = (m : ℂ) * (2 * Real.pi) :=
      mul_right_cancel₀ Complex.I_ne_zero hm'
    have h3 : θ = (m : ℝ) * (2 * Real.pi) := by exact_mod_cast h2
    rw [hθ] at h3
    have h4 : (2 * Real.pi) * (k : ℝ) = (2 * Real.pi) * ((m : ℝ) * N) := by
      field_simp at h3
      linarith
    have h5 : (k : ℝ) = (m : ℝ) * N :=
      mul_left_cancel₀ (by positivity) h4
    have h6 : (k : ℤ) = m * N := by exact_mod_cast h5
    have hkZ1 : (1 : ℤ) ≤ (k : ℤ) := by exact_mod_cast hk1
    have hkZN : (k : ℤ) < (N : ℤ) := by exact_mod_cast hkN
    have hNZ : (1 : ℤ) ≤ (N : ℤ) := by omega
    rcases le_or_lt m 0 with hm0 | hm1
    · nlinarith
    · nlinarith
  have hzN : z ^ N = 1 := by
    rw [hz, ← Complex.exp_nat_mul]
    have harg : (N : ℂ) * ((θ : ℝ) * Complex.I) =
        (k : ℂ) * (2 * (Real.pi : ℂ) * Complex.I) := by
      have hNC : (N : ℂ) ≠ 0 := Nat.cast_ne_zero.mpr (by omega)
      rw [hθ]
      push_cast
      field_simp
      ring
    rw [harg]
    exact Complex.exp_nat_mul_two_pi_mul_I k
  have hsum : ∑ n ∈ Finset.range N, z ^ n = 0 := by
    rw [geom_sum_eq hzne, hzN, sub_self, zero_div]
  have hzn : ∀ n : ℕ, z ^ n = Complex.exp ((θ * n : ℝ) * Complex.I) := by
    intro n
    rw [hz, ← Complex.exp_nat_mul]
    congr 1
    push_cast
    ring
  have harg2 : ∀ n : ℕ, θ * n = 2 * Real.pi * k * n / N := by
    intro n
    rw [hθ]
    ring
  constructor
  · have hre := congrArg Complex.re hsum
    rw [Complex.re_sum] at hre
    calc ∑ n ∈ Finset.range N, Real.cos (2 * Real.pi * k * n / N)
        = ∑ n ∈ Finset.range N, (z ^ n).re := by
          refine Finset.sum_congr rfl fun n _ => ?_
          rw [hzn n, Complex.exp_ofReal_mul_I_re, harg2 n]
      _ = 0 := hre
  · have him := congrArg Complex.im hsum
    rw [Complex.im_sum] at him
    calc ∑ n ∈ Finset.range N, Real.sin (2 * Real.pi * k * n / N)
        = ∑ n ∈ Finset.range N, (z ^ n).im := by
          refine Finset.sum_congr rfl fun n _ => ?_
          rw [hzn n, Complex.exp_ofReal_mul_I_im, harg2 n]
      _ = 0 := him

theorem dft_getD (signal : List ℝ) (k : ℕ) (hk : k < signal.length) :
    (dft signal).getD k ⟨0, 0⟩ =
      { real := ∑ n ∈ Finset.range signal.length,
          signal.getD n 0 * Real.cos (2 * Real.pi * k * n / signal.length)
        imag := - ∑ n ∈ Finset.range signal.length,
          signal.getD n 0 * Real.sin (2 * Real.pi * k * n / signal.length) } := by
  unfold dft
  rw [List.getD_eq_getElem?_getD, List.getElem?_map, List.getElem?_range hk]
  rfl

theorem replicate_getD (N : ℕ) (c : ℝ) (n : ℕ) (hn : n < N) :
    (List.replicate N c).getD n 0 = c := by
  rw [List.getD_eq_getElem?_getD, List.getElem?_replicate, if_pos hn]
  rfl

/-- C8: the DFT of a constant signal of length `N ≥ 1` with value `c`
has exactly `N` output bins; in exact real arithmetic bin 0 is
`(N·c, 0)` and every bin `k` with `1 ≤ k < N` is `(0, 0)` — the sums of
`cos(2πkn/N)` and `sin(2πkn/N)` over a full period vanish (geometric sum
of a nontrivial `N`-th root of unity). -/
theorem dft_constant (N : ℕ) (c : ℝ) (hN : 1 ≤ N) :
    (dft (List.replicate N c)).length = N ∧
    (dft (List.replicate N c)).getD 0 ⟨0, 0⟩ = ⟨(N : ℝ) * c, 0⟩ ∧
    ∀ k : ℕ, 1 ≤ k → k < N →
      (dft (List.replicate N c)).getD k ⟨0, 0⟩ = ⟨0, 0⟩ := by
  have hlen : (List.replicate N c).length = N := List.length_replicate N c
  refine ⟨by rw [dft, hlen, List.length_map, List.length_range], ?_, ?_⟩
  · rw [dft_getD _ 0 (by rw [hlen]; omega)]
    rw [hlen]
    have hre : ∑ n ∈ Finset.range N,
        (List.replicate N c).getD n 0 * Real.cos (2 * Real.pi * (0 : ℕ) * n / N) =
        (N : ℝ) * c := by
      have hterm : ∀ n ∈ Finset.range N,
          (List.replicate N c).getD n 0 *
            Real.cos (2 * Real.pi * (0 : ℕ) * n / N) = c := by
        intro n hn
        rw [replicate_getD N c n (Finset.mem_range.mp hn)]
        norm_num
      rw [Finset.sum_congr rfl hterm, Finset.sum_const, Finset.card_range,
        nsmul_eq_mul]
    have him : ∑ n ∈ Finset.range N,
        (List.replicate N c).getD n 0 * Real.sin (2 * Real.pi * (0 : ℕ) * n / N) =
        0 := by
      have hterm : ∀ n ∈ Finset.range N,
          (List.replicate N c).getD n 0 *
            Real.sin (2 * Real.pi * (0 : ℕ) * n / N) = 0 := by
        intro n hn
        rw [replicate_getD N c n (Finset.mem_range.mp hn)]
        norm_num
      rw [Finset.sum_congr rfl hterm, Finset.sum_const, Finset.card_range,
        smul_zero]
    rw [hre, him, neg_zero]
  · intro k hk1 hkN
    rw [dft_getD _ k (by rw [hlen]; omega)]
    rw [hlen]
    obtain ⟨hcos, hsin⟩ := sum_cos_sum_sin_zero N k hk1 hkN
    have hre : ∑ n ∈ Finset.range N,
        (List.replicate N c).getD n 0 * Real.cos (2 * Real.pi * k * n / N) =
        c * ∑ n ∈ Finset.range N, Real.cos (2 * Real.pi * k * n / N) := by
      rw [Finset.mul_sum]
      have hterm : ∀ n ∈ Finset.range N,
          (List.replicate N c).getD n 0 * Real.cos (2 * Real.pi * k * n / N) =
          c * Real.cos (2 * Real.pi * k * n / N) := by
        intro n hn
        rw [replicate_getD N c n (Finset.mem_range.mp hn)]
      exact Finset.sum_congr rfl hterm
    have him : ∑ n ∈ Finset.range N,
        (List.replicate N c).getD n 0 * Real.sin (2 * Real.pi * k * n / N) =
        c * ∑ n ∈ Finset.range N, Real.sin (2 * Real.pi * k * n / N) := by
      rw [Finset.mul_sum]
      have hterm : ∀ n ∈ Finset.range N,
          (List.replicate N c).getD n 0 * Real.sin (2 * Real.pi * k * n / N) =
          c * Real.sin (2 * Real.pi * k * n / N) := by
        intro n hn
        rw [replicate_getD N c n (Finset.mem_range.mp hn)]
      exact Finset.sum_congr rfl hterm
    rw [hre, him, hcos, hsin, mul_zero, neg_zero]

theorem dft_constant_witness :
    (1 ≤ 2) ∧
    (dft (List.replicate 2 (1 : ℝ))).length = 2 ∧
    (dft (List.replicate 2 (1 : ℝ))).getD 0 ⟨0, 0⟩ = ⟨((2 : ℕ) : ℝ) * 1, 0⟩ ∧
    (dft (List.replicate 2 (1 : ℝ))).getD 1 ⟨0, 0⟩ = ⟨0, 0⟩ :=
  ⟨by norm_num, (dft_constant 2 1 (by norm_num)).1,
    (dft_constant 2 1 (by norm_num)).2.1,
    (dft_constant 2 1 (by norm_num)).2.2 1 (by norm_num) (by norm_num)⟩

/-- C9: the two source files define `generateSignalWithHarmonics` with
identical bodies (they differ only in formatting), so the two functions
are extensionally — indeed definitionally — equal on every input. -/
theorem generateSignalWithHarmonics_equivalent :
    ∀ (baseFrequency : ℝ) (harmonics : ℕ) (amplitude : ℝ) (samples : ℕ),
      MathUtils.generateSignalWithHarmonics baseFrequency harmonics
          amplitude samples =
        DataUtils.generateSignalWithHarmonics baseFrequency harmonics
          amplitude samples :=
  fun _ _ _ _ => rfl

/-- C10: for every `lambda` and every negative integer `k`,
`poissonPMF(k, lambda)` returns `NaN` rather than 0: the `factorial`
helper returns `NaN` for negative arguments and every IEEE division by
`NaN` is `NaN` — unlike `binomialPMF`, whose coefficient maps
out-of-support `k` to an exact 0. -/
theorem poissonPMF_negative_nan (k : ℤ) (lambda : ℝ) (hk : k < 0) :
    poissonPMF k lambda = JSNum.nan ∧ poissonPMF k lambda ≠ JSNum.fin 0 := by
  have hfac : factorial k = JSNum.nan := by
    unfold factorial
    rw [if_pos hk]
  have h : poissonPMF k lambda = JSNum.nan := by
    unfold poissonPMF
    rw [hfac]
    cases jmul (jzpow (JSNum.fin lambda) k) (JSNum.fin (Real.exp (-lambda))) <;>
      rfl
  exact ⟨h, by rw [h]; exact fun hc => JSNum.noConfusion hc⟩

theorem poissonPMF_negative_nan_witness :
    ((-1 : ℤ) < 0) ∧
    (poissonPMF (-1) (1 : ℝ) = JSNum.nan ∧
      poissonPMF (-1) (1 : ℝ) ≠ JSNum.fin 0) :=
  ⟨by norm_num, poissonPMF_negative_nan (-1) 1 (by norm_num)⟩
